import Mathlib

set_option linter.all false

/-! Shallow embedding of `mpc-algebra/src/reveal.rs`: the `Reveal` conversion
contract and its implementations for `usize`, `PhantomData<T>`, `Vec<T>`,
`BTreeMap<K, V>`, `Option<T>`, `Rc<T>` and pairs `(A, B)`.  The Rust trait is
modelled as an explicit dictionary `Reveal α β`, with `β` playing the role of
the associated type `Base`.  The panicking default body of `unwrap_as_public`
(`unimplemented!("No unwrap as public for {}", type_name::<Self>())`) is
modelled as `Except.error` carrying the message built from the type name;
every overriding implementation returns `Except.ok`, and a panic inside an
element of a composite propagates as the composite's `Except.error`.
`usize` is modelled as `Nat` (the only operations on it here are identities),
`Vec<T>` as `List`, `Rc<T>` as a one-field wrapper (clone of a pure value is
the value itself), and `BTreeMap<K, V>` as a list of key-value pairs strictly
sorted by key, with `FromIterator`-`collect` performing left-to-right
`insert` (an insert with an already-present key keeps the old key and
replaces the value, as `BTreeMap::insert` does). -/

/-- Default body of `Reveal::unwrap_as_public` from the trait definition:
it fails fatally with a message identifying the offending type. -/
def defaultUnwrapAsPublic (α β : Type) (typeName : String) : α → Except String β :=
  fun _ => Except.error ("No unwrap as public for " ++ typeName)

/-- The `Reveal` trait: `α` is `Self`, `β` is the associated `Base` type.
A type that does not override `unwrap_as_public` gets the fatal default. -/
structure Reveal (α β : Type) where
  typeName : String
  reveal : α → β
  from_add_shared : β → α
  from_public : β → α
  unwrap_as_public : α → Except String β := defaultUnwrapAsPublic α β typeName

/-- `impl Reveal for usize`: all four operations are the identity. -/
def usizeReveal : Reveal Nat Nat where
  typeName := "usize"
  reveal x := x
  from_add_shared b := b
  from_public b := b
  unwrap_as_public x := Except.ok x

/-- Model of `std::marker::PhantomData<T>`: a zero-sized marker type. -/
structure PhantomData (α : Type) where
  mk ::

/-- `impl<T: Reveal> Reveal for PhantomData<T>`: every operation returns
`PhantomData::default()` and `unwrap_as_public` is overridden to succeed. -/
def phantomReveal {α β : Type} (R : Reveal α β) : Reveal (PhantomData α) (PhantomData β) where
  typeName := "PhantomData"
  reveal _ := PhantomData.mk
  from_add_shared _ := PhantomData.mk
  from_public _ := PhantomData.mk
  unwrap_as_public _ := Except.ok PhantomData.mk

/-- `iter.map(f).collect::<Vec<_>>()` where `f` may panic: elements are
processed left to right and the first panic aborts the whole collection. -/
def exceptMapList {α β : Type} (f : α → Except String β) : List α → Except String (List β)
  | [] => Except.ok []
  | a :: l =>
    match f a with
    | Except.error e => Except.error e
    | Except.ok b =>
      match exceptMapList f l with
      | Except.error e => Except.error e
      | Except.ok bs => Except.ok (b :: bs)

/-- `impl<T: Reveal> Reveal for Vec<T>`: each operation maps the corresponding
element operation over the vector. -/
def vecReveal {α β : Type} (R : Reveal α β) : Reveal (List α) (List β) where
  typeName := "Vec"
  reveal l := l.map R.reveal
  from_public l := l.map R.from_public
  from_add_shared l := l.map R.from_add_shared
  unwrap_as_public l := exceptMapList R.unwrap_as_public l

/-- `impl<T: Reveal> Reveal for Option<T>`: `None` maps to `None`,
`Some(x)` maps to `Some` of the element operation. -/
def optionReveal {α β : Type} (R : Reveal α β) : Reveal (Option α) (Option β) where
  typeName := "Option"
  reveal o := o.map R.reveal
  from_public o := o.map R.from_public
  from_add_shared o := o.map R.from_add_shared
  unwrap_as_public o :=
    match o with
    | none => Except.ok none
    | some x => Except.map some (R.unwrap_as_public x)

/-- Model of `std::rc::Rc<T>`: a shared-ownership cell around a pointee. -/
structure Rc (α : Type) where
  get : α

/-- `impl<T: Reveal + Clone> Reveal for Rc<T>`: dereference, clone the
pointee, apply the operation to the clone, rewrap in a fresh cell. -/
def rcReveal {α β : Type} (R : Reveal α β) : Reveal (Rc α) (Rc β) where
  typeName := "Rc"
  reveal c := Rc.mk (R.reveal c.get)
  from_public b := Rc.mk (R.from_public b.get)
  from_add_shared b := Rc.mk (R.from_add_shared b.get)
  unwrap_as_public c := Except.map Rc.mk (R.unwrap_as_public c.get)

/-- `impl<A: Reveal, B: Reveal> Reveal for (A, B)`: componentwise, the first
component first (so its panic wins when both would fail). -/
def pairReveal {α β γ δ : Type} (RA : Reveal α β) (RB : Reveal γ δ) :
    Reveal (α × γ) (β × δ) where
  typeName := "Pair"
  reveal p := (RA.reveal p.1, RB.reveal p.2)
  from_public q := (RA.from_public q.1, RB.from_public q.2)
  from_add_shared q := (RA.from_add_shared q.1, RB.from_add_shared q.2)
  unwrap_as_public p :=
    match RA.unwrap_as_public p.1 with
    | Except.error e => Except.error e
    | Except.ok a =>
      match RB.unwrap_as_public p.2 with
      | Except.error e => Except.error e
      | Except.ok b => Except.ok (a, b)

/-- The strict key order of a key-value pair list. -/
def keyLt {κ ν : Type} [LinearOrder κ] (a b : κ × ν) : Prop := a.1 < b.1

/-- `BTreeMap::insert` on the sorted entry list: a pair with a smaller key
goes in front, a pair with an equal key replaces the value but keeps the
stored key, otherwise recurse. -/
def insertPair {κ ν : Type} [LinearOrder κ] (p : κ × ν) : List (κ × ν) → List (κ × ν)
  | [] => [p]
  | q :: l =>
    if p.1 < q.1 then p :: q :: l
    else if q.1 < p.1 then q :: insertPair p l
    else (q.1, p.2) :: l

/-- `FromIterator for BTreeMap`: insert the yielded pairs left to right into
an initially empty map. -/
def collectList {κ ν : Type} [LinearOrder κ] (l : List (κ × ν)) : List (κ × ν) :=
  List.foldl (fun acc p => insertPair p acc) [] l

/-- Model of `BTreeMap<K, V>`: the entry list, strictly sorted by key. -/
structure BTreeMap (κ ν : Type) [LinearOrder κ] where
  entries : List (κ × ν)
  sorted : entries.Pairwise keyLt

instance keyLtDecidable {κ ν : Type} [LinearOrder κ] : DecidableRel (@keyLt κ ν _) :=
  fun a b => inferInstanceAs (Decidable (a.1 < b.1))

instance keyLtAntisymm {κ ν : Type} [LinearOrder κ] : IsAntisymm (κ × ν) keyLt :=
  ⟨fun a _ h1 h2 => absurd (lt_trans h1 h2) (lt_irrefl a.1)⟩

def mem_insertPair {κ ν : Type} [LinearOrder κ] (p : κ × ν) :
    ∀ (l : List (κ × ν)) (r : κ × ν), r ∈ insertPair p l → r.1 = p.1 ∨ r ∈ l := by
  intro l
  induction l with
  | nil =>
    intro r hr
    simp only [insertPair, List.mem_singleton] at hr
    exact Or.inl (by rw [hr])
  | cons q t ih =>
    intro r hr
    by_cases h1 : p.1 < q.1
    · simp only [insertPair, if_pos h1, List.mem_cons] at hr
      rcases hr with hr | hr | hr
      · exact Or.inl (by rw [hr])
      · exact Or.inr (by simp [hr])
      · exact Or.inr (List.mem_cons_of_mem q hr)
    · by_cases h2 : q.1 < p.1
      · simp only [insertPair, if_neg h1, if_pos h2, List.mem_cons] at hr
        rcases hr with hr | hr
        · exact Or.inr (by simp [hr])
        · rcases ih r hr with hh | hh
          · exact Or.inl hh
          · exact Or.inr (List.mem_cons_of_mem q hh)
      · simp only [insertPair, if_neg h1, if_neg h2, List.mem_cons] at hr
        rcases hr with hr | hr
        · refine Or.inl ?_
          rw [hr]
          exact le_antisymm (not_lt.mp h1) (not_lt.mp h2)
        · exact Or.inr (List.mem_cons_of_mem q hr)

def insertPair_sorted {κ ν : Type} [LinearOrder κ] (p : κ × ν) :
    ∀ l : List (κ × ν), l.Pairwise keyLt → (insertPair p l).Pairwise keyLt := by
  intro l
  induction l with
  | nil => intro _; simpa [insertPair] using List.pairwise_singleton keyLt p
  | cons q t ih =>
    intro h
    rw [List.pairwise_cons] at h
    by_cases h1 : p.1 < q.1
    · simp only [insertPair, if_pos h1]
      refine List.Pairwise.cons ?_ (List.Pairwise.cons h.1 h.2)
      intro r hr
      rcases List.mem_cons.mp hr with hr | hr
      · rw [hr]; exact h1
      · exact lt_trans h1 (h.1 r hr)
    · by_cases h2 : q.1 < p.1
      · simp only [insertPair, if_neg h1, if_pos h2]
        refine List.Pairwise.cons ?_ (ih h.2)
        intro r hr
        rcases mem_insertPair p t r hr with hh | hh
        · show q.1 < r.1
          rw [hh]
          exact h2
        · exact h.1 r hh
      · simp only [insertPair, if_neg h1, if_neg h2]
        refine List.Pairwise.cons ?_ h.2
        intro r hr
        show q.1 < r.1
        exact h.1 r hr

def foldl_insert_sorted {κ ν : Type} [LinearOrder κ] :
    ∀ (l acc : List (κ × ν)), acc.Pairwise keyLt →
      (List.foldl (fun acc p => insertPair p acc) acc l).Pairwise keyLt := by
  intro l
  induction l with
  | nil => intro acc h; exact h
  | cons p t ih => intro acc h; exact ih (insertPair p acc) (insertPair_sorted p acc h)

def collectList_sorted {κ ν : Type} [LinearOrder κ] (l : List (κ × ν)) :
    (collectList l).Pairwise keyLt :=
  foldl_insert_sorted l [] List.Pairwise.nil

/-- Collecting an iterator of key-value pairs into a `BTreeMap`. -/
def mapCollect {κ ν : Type} [LinearOrder κ] (l : List (κ × ν)) : BTreeMap κ ν :=
  BTreeMap.mk (collectList l) (collectList_sorted l)

/-- `impl<K: Reveal + Ord, V: Reveal> Reveal for BTreeMap<K, V> where K::Base: Ord`:
each operation maps the pair operation over the entries in key order and
collects the results into a fresh map. -/
def btreeMapReveal {κ κB ν νB : Type} [LinearOrder κ] [LinearOrder κB]
    (RK : Reveal κ κB) (RV : Reveal ν νB) :
    Reveal (BTreeMap κ ν) (BTreeMap κB νB) where
  typeName := "BTreeMap"
  reveal m := mapCollect (m.entries.map (pairReveal RK RV).reveal)
  from_public m := mapCollect (m.entries.map (pairReveal RK RV).from_public)
  from_add_shared m := mapCollect (m.entries.map (pairReveal RK RV).from_add_shared)
  unwrap_as_public m :=
    Except.map mapCollect (exceptMapList (pairReveal RK RV).unwrap_as_public m.entries)

/-- A dedicated leaf type that keeps the default `unwrap_as_public`: it
models a bare secret-share type with no public-unwrap override. -/
structure BareShare where
  val : Nat

/-- A contract implementation for `BareShare` that does not override the
default `unwrap_as_public`. -/
def bareShareReveal : Reveal BareShare Nat where
  typeName := "BareShare"
  reveal x := x.val
  from_add_shared b := BareShare.mk b
  from_public b := BareShare.mk b

/-- A contract dictionary over `Nat` whose reveal is many-to-one (as for a
share type whose distinct shares reveal to the same reconstructed secret);
used to exhibit key collisions introduced by map reveal. -/
def constNatReveal : Reveal Nat Nat where
  typeName := "ConstShare"
  reveal _ := 0
  from_add_shared b := b
  from_public b := b
  unwrap_as_public x := Except.ok x

/-- A two-entry map whose keys both reveal to `0` under `constNatReveal`. -/
def cexMap : BTreeMap Nat Nat :=
  BTreeMap.mk [(0, 10), (1, 20)] (by decide)

/-- The round-trip law of the spec: unwrapping a value tagged public
returns the original base value. -/
def UnwrapFromPublicId {α β : Type} (R : Reveal α β) : Prop :=
  ∀ b : β, R.unwrap_as_public (R.from_public b) = Except.ok b

/-- The law that `from_public` is a right inverse of `reveal`. -/
def RevealFromPublicId {α β : Type} (R : Reveal α β) : Prop :=
  ∀ b : β, R.reveal (R.from_public b) = b

theorem BTreeMap.eq_of_entries_eq {κ ν : Type} [LinearOrder κ] {m₁ m₂ : BTreeMap κ ν}
    (h : m₁.entries = m₂.entries) : m₁ = m₂ := by
  cases m₁
  cases m₂
  simp only at h
  subst h
  rfl

theorem insertPair_perm {κ ν : Type} [LinearOrder κ] (p : κ × ν) :
    ∀ l : List (κ × ν), p.1 ∉ l.map Prod.fst → List.Perm (insertPair p l) (p :: l) := by
  intro l
  induction l with
  | nil => intro _; simp [insertPair]
  | cons q t ih =>
    intro h
    simp only [List.map_cons, List.mem_cons] at h
    push_neg at h
    by_cases h1 : p.1 < q.1
    · simp [insertPair, if_pos h1]
    · by_cases h2 : q.1 < p.1
      · simp only [insertPair, if_neg h1, if_pos h2]
        exact List.Perm.trans (List.Perm.cons q (ih h.2)) (List.Perm.swap p q t)
      · exact absurd (le_antisymm (not_lt.mp h2) (not_lt.mp h1)) h.1

theorem foldl_insert_perm {κ ν : Type} [LinearOrder κ] :
    ∀ (l acc : List (κ × ν)), acc.Pairwise keyLt →
      ((acc ++ l).map Prod.fst).Nodup →
      List.Perm (List.foldl (fun acc p => insertPair p acc) acc l) (acc ++ l) := by
  intro l
  induction l with
  | nil => intro acc _ _; simp
  | cons p t ih =>
    intro acc hs hn
    have hn2 := hn
    rw [List.map_append, List.nodup_append] at hn2
    have hpacc : p.1 ∉ acc.map Prod.fst := fun hmem => (hn2.2.2 hmem) (by simp)
    have hperm1 : List.Perm (insertPair p acc) (p :: acc) := insertPair_perm p acc hpacc
    have hperm2 : List.Perm (insertPair p acc ++ t) (acc ++ p :: t) :=
      List.Perm.trans (List.Perm.append_right t hperm1) List.perm_middle.symm
    have hsorted2 := insertPair_sorted p acc hs
    have hnodup2 : ((insertPair p acc ++ t).map Prod.fst).Nodup :=
      (List.Perm.nodup_iff (List.Perm.map Prod.fst hperm2)).mpr hn
    exact List.Perm.trans (ih (insertPair p acc) hsorted2 hnodup2) hperm2

theorem collectList_perm {κ ν : Type} [LinearOrder κ] (l : List (κ × ν))
    (h : (l.map Prod.fst).Nodup) : List.Perm (collectList l) l :=
  foldl_insert_perm l [] List.Pairwise.nil (by simpa using h)

theorem exceptMapList_ok_forall2 {α β : Type} (f : α → Except String β) :
    ∀ (l : List α) (bs : List β),
      exceptMapList f l = Except.ok bs ↔
        List.Forall₂ (fun a b => f a = Except.ok b) l bs := by
  intro l
  induction l with
  | nil =>
    intro bs
    constructor
    · intro h
      simp only [exceptMapList, Except.ok.injEq] at h
      subst h
      exact List.Forall₂.nil
    · intro h
      cases h
      rfl
  | cons a t ih =>
    intro bs
    constructor
    · intro h
      cases hfa : f a with
      | error e => simp [exceptMapList, hfa] at h
      | ok b =>
        cases hrec : exceptMapList f t with
        | error e => simp [exceptMapList, hfa, hrec] at h
        | ok cs =>
          simp only [exceptMapList, hfa, hrec, Except.ok.injEq] at h
          subst h
          exact List.Forall₂.cons hfa ((ih cs).mp hrec)
    · intro h
      cases h with
      | cons hab hrest =>
        simp only [exceptMapList, hab, (ih _).mpr hrest]

theorem exceptMapList_length {α β : Type} (f : α → Except String β)
    (l : List α) (bs : List β) (h : exceptMapList f l = Except.ok bs) :
    bs.length = l.length :=
  (List.Forall₂.length_eq ((exceptMapList_ok_forall2 f l bs).mp h)).symm

theorem exceptMapList_ok_iff {α β : Type} (f : α → Except String β) :
    ∀ l : List α,
      (∃ bs, exceptMapList f l = Except.ok bs) ↔ ∀ a ∈ l, ∃ b, f a = Except.ok b := by
  intro l
  induction l with
  | nil =>
    constructor
    · intro _ a ha; exact absurd ha (List.not_mem_nil a)
    · intro _; exact ⟨[], rfl⟩
  | cons a t ih =>
    constructor
    · rintro ⟨bs, hbs⟩ x hx
      cases hfa : f a with
      | error e => simp [exceptMapList, hfa] at hbs
      | ok b =>
        cases hrec : exceptMapList f t with
        | error e => simp [exceptMapList, hfa, hrec] at hbs
        | ok cs =>
          rcases List.mem_cons.mp hx with hx | hx
          · exact ⟨b, by rw [hx]; exact hfa⟩
          · exact ih.mp ⟨cs, hrec⟩ x hx
    · intro h
      obtain ⟨b, hb⟩ := h a (by simp)
      obtain ⟨cs, hcs⟩ := ih.mpr (fun x hx => h x (List.mem_cons_of_mem a hx))
      exact ⟨b :: cs, by simp only [exceptMapList, hb, hcs]⟩

theorem exceptMapList_ok_of_forall {α β : Type} (f : α → Except String β) (g : α → β) :
    ∀ l : List α, (∀ a ∈ l, f a = Except.ok (g a)) →
      exceptMapList f l = Except.ok (l.map g) := by
  intro l
  induction l with
  | nil => intro _; rfl
  | cons a t ih =>
    intro h
    have ha := h a (by simp)
    have ht := ih (fun x hx => h x (List.mem_cons_of_mem a hx))
    simp only [exceptMapList, ha, ht, List.map_cons]

theorem exceptMapList_map {α β γ : Type} (f : β → Except String γ) (h : α → β) :
    ∀ l : List α, exceptMapList f (l.map h) = exceptMapList (fun a => f (h a)) l := by
  intro l
  induction l with
  | nil => rfl
  | cons a t ih => simp only [List.map_cons, exceptMapList, ih]

theorem exceptMapList_inv {α β : Type} (f : β → α) (u : α → Except String β)
    (hret : ∀ b, u (f b) = Except.ok b) :
    ∀ l : List α, (∀ p ∈ l, ∃ q, p = f q) →
      ∃ bs, exceptMapList u l = Except.ok bs ∧ bs.map f = l := by
  intro l
  induction l with
  | nil => intro _; exact ⟨[], rfl, rfl⟩
  | cons p t ih =>
    intro h
    obtain ⟨q, hq⟩ := h p (by simp)
    obtain ⟨bs, hbs, hmap⟩ := ih (fun x hx => h x (List.mem_cons_of_mem p hx))
    refine ⟨q :: bs, ?_, ?_⟩
    · simp only [exceptMapList, hq, hret q, hbs]
    · simp [hmap, hq]

/-- C5: For the identity-reveal primitive type `usize`, all four contract
operations are the identity, and `unwrap_as_public` succeeds. -/
theorem usize_all_ops_identity :
    ∀ x : Nat,
      usizeReveal.reveal x = x ∧ usizeReveal.from_public x = x ∧
      usizeReveal.from_add_shared x = x ∧
      usizeReveal.unwrap_as_public x = Except.ok x :=
  fun _ => ⟨rfl, rfl, rfl, rfl⟩

/-- C6: The optional container preserves absence: every one of the four
operations maps `None` to `None` and `Some` to `Some` of the element
operation (for `unwrap_as_public`, the element's success or failure is
mapped through). -/
theorem option_preserves_absence :
    ∀ (α β : Type) (R : Reveal α β),
      (optionReveal R).reveal none = none ∧
      (∀ x, (optionReveal R).reveal (some x) = some (R.reveal x)) ∧
      (optionReveal R).from_public none = none ∧
      (∀ b, (optionReveal R).from_public (some b) = some (R.from_public b)) ∧
      (optionReveal R).from_add_shared none = none ∧
      (∀ b, (optionReveal R).from_add_shared (some b) = some (R.from_add_shared b)) ∧
      (optionReveal R).unwrap_as_public none = Except.ok none ∧
      (∀ x, (optionReveal R).unwrap_as_public (some x) =
        Except.map some (R.unwrap_as_public x)) :=
  fun _ _ _ =>
    ⟨rfl, fun _ => rfl, rfl, fun _ => rfl, rfl, fun _ => rfl, rfl, fun _ => rfl⟩

/-- C8: Each shared-ownership-cell operation dereferences the cell, applies
the element operation to a duplicate of the pointee, and rewraps the result
in a fresh cell; the original cell's pointee is untouched. -/
theorem rc_ops_clone_and_rewrap :
    ∀ (α β : Type) (R : Reveal α β) (c : Rc α) (b : Rc β),
      (rcReveal R).reveal c = Rc.mk (R.reveal c.get) ∧
      (rcReveal R).from_public b = Rc.mk (R.from_public b.get) ∧
      (rcReveal R).from_add_shared b = Rc.mk (R.from_add_shared b.get) ∧
      (rcReveal R).unwrap_as_public c = Except.map Rc.mk (R.unwrap_as_public c.get) :=
  fun _ _ _ _ _ => ⟨rfl, rfl, rfl, rfl⟩

/-- C10: The `PhantomData` operations are total constant functions: `reveal`
and `unwrap_as_public` return the phantom marker of the base type (the
unwrap succeeding no matter what the parameter dictionary does, in
particular when it keeps the fatal default), and `from_add_shared` and
`from_public` ignore their argument. -/
theorem phantom_ops_constant :
    ∀ (α β : Type) (R : Reveal α β) (x : PhantomData α) (b : PhantomData β),
      (phantomReveal R).reveal x = PhantomData.mk ∧
      (phantomReveal R).from_add_shared b = PhantomData.mk ∧
      (phantomReveal R).from_public b = PhantomData.mk ∧
      (phantomReveal R).unwrap_as_public x = Except.ok PhantomData.mk :=
  fun _ _ _ _ _ => ⟨rfl, rfl, rfl, rfl⟩

/-- C3: A type that does not override the default `unwrap_as_public` fails
fatally with a message identifying the offending type and never silently
returns a value: shown for the dedicated non-overriding type `BareShare`,
and for the default body itself at every type and every input. -/
theorem default_unwrap_as_public_fatal :
    (∀ x : BareShare,
        bareShareReveal.unwrap_as_public x =
          Except.error ("No unwrap as public for " ++ "BareShare")) ∧
    (∀ (x : BareShare) (b : Nat), bareShareReveal.unwrap_as_public x ≠ Except.ok b) ∧
    (∀ (α β : Type) (name : String) (x : α),
        defaultUnwrapAsPublic α β name x =
          Except.error ("No unwrap as public for " ++ name)) :=
  ⟨fun _ => rfl, fun _ _ h => Except.noConfusion h, fun _ _ _ _ => rfl⟩

theorem default_unwrap_as_public_fatal_witness :
    bareShareReveal.unwrap_as_public (BareShare.mk 5) =
      Except.error ("No unwrap as public for " ++ "BareShare") :=
  default_unwrap_as_public_fatal.1 (BareShare.mk 5)

/-- C4: Conversion never changes shape: `reveal` on a sequence preserves its
length and acts elementwise, `from_public` and `from_add_shared` preserve
sequence length, a successful `unwrap_as_public` preserves sequence length,
a pair is converted componentwise and reassembled, and `Some`/`None`
structure is preserved. -/
theorem conversion_preserves_shape :
    (∀ (α β : Type) (R : Reveal α β) (v : List α),
      ((vecReveal R).reveal v).length = v.length ∧
      ∀ i : Nat, ((vecReveal R).reveal v)[i]? = (v[i]?).map R.reveal) ∧
    (∀ (α β : Type) (R : Reveal α β) (b : List β),
      ((vecReveal R).from_public b).length = b.length ∧
      ((vecReveal R).from_add_shared b).length = b.length) ∧
    (∀ (α β : Type) (R : Reveal α β) (v : List α) (bs : List β),
      (vecReveal R).unwrap_as_public v = Except.ok bs → bs.length = v.length) ∧
    (∀ (α β γ δ : Type) (RA : Reveal α β) (RB : Reveal γ δ) (p : α × γ),
      (pairReveal RA RB).reveal p = (RA.reveal p.1, RB.reveal p.2)) ∧
    (∀ (α β : Type) (R : Reveal α β),
      (optionReveal R).reveal none = none ∧
      ∀ x, (optionReveal R).reveal (some x) = some (R.reveal x)) := by
  refine ⟨?_, ?_, ?_, ?_, ?_⟩
  · intro α β R v
    exact ⟨List.length_map v R.reveal, fun i => List.getElem?_map R.reveal v i⟩
  · intro α β R b
    exact ⟨List.length_map b R.from_public, List.length_map b R.from_add_shared⟩
  · intro α β R v bs h
    exact exceptMapList_length R.unwrap_as_public v bs h
  · intro α β γ δ RA RB p
    rfl
  · intro α β R
    exact ⟨rfl, fun _ => rfl⟩

theorem conversion_preserves_shape_witness :
    (vecReveal usizeReveal).unwrap_as_public [3, 4] = Except.ok [3, 4] ∧
    ([3, 4] : List Nat).length = ([3, 4] : List Nat).length :=
  ⟨rfl, conversion_preserves_shape.2.2.1 Nat Nat usizeReveal [3, 4] [3, 4] rfl⟩

theorem btree_keys_nodup {κ ν : Type} [LinearOrder κ] (m : BTreeMap κ ν) :
    (m.entries.map Prod.fst).Nodup := by
  have h : m.entries.Pairwise (fun a b : κ × ν => a.1 ≠ b.1) :=
    List.Pairwise.imp (fun hab => ne_of_lt hab) m.sorted
  exact List.pairwise_map.mpr h

theorem collectList_eq_of_perm_sorted {κ ν : Type} [LinearOrder κ]
    (l tgt : List (κ × ν)) (hperm : List.Perm l tgt)
    (hnodup : (tgt.map Prod.fst).Nodup) (hsorted : tgt.Pairwise keyLt) :
    collectList l = tgt := by
  have hn : (l.map Prod.fst).Nodup :=
    (List.Perm.nodup_iff (List.Perm.map Prod.fst hperm)).mpr hnodup
  exact List.eq_of_perm_of_sorted ((collectList_perm l hn).trans hperm)
    (collectList_sorted l) hsorted

theorem usize_unwrap_from_public : UnwrapFromPublicId usizeReveal := fun _ => rfl

theorem vec_unwrap_from_public {α β : Type} (R : Reveal α β)
    (h : UnwrapFromPublicId R) : UnwrapFromPublicId (vecReveal R) := by
  intro l
  show exceptMapList R.unwrap_as_public (l.map R.from_public) = Except.ok l
  rw [exceptMapList_map]
  have h2 := exceptMapList_ok_of_forall
    (fun a => R.unwrap_as_public (R.from_public a)) id l (fun a _ => h a)
  simpa using h2

theorem pair_unwrap_from_public {α β γ δ : Type} (RA : Reveal α β) (RB : Reveal γ δ)
    (hA : UnwrapFromPublicId RA) (hB : UnwrapFromPublicId RB) :
    UnwrapFromPublicId (pairReveal RA RB) := by
  intro q
  show (pairReveal RA RB).unwrap_as_public (RA.from_public q.1, RB.from_public q.2) =
    Except.ok q
  simp [pairReveal, hA q.1, hB q.2]

theorem option_unwrap_from_public {α β : Type} (R : Reveal α β)
    (h : UnwrapFromPublicId R) : UnwrapFromPublicId (optionReveal R) := by
  intro b
  cases b with
  | none => rfl
  | some x =>
    show Except.map some (R.unwrap_as_public (R.from_public x)) = Except.ok (some x)
    rw [h x]
    rfl

theorem rc_unwrap_from_public {α β : Type} (R : Reveal α β)
    (h : UnwrapFromPublicId R) : UnwrapFromPublicId (rcReveal R) := by
  intro b
  show Except.map Rc.mk (R.unwrap_as_public (R.from_public b.get)) = Except.ok b
  rw [h b.get]
  rfl

theorem btree_from_public_entries_perm {κ κB ν νB : Type} [LinearOrder κ] [LinearOrder κB]
    (RK : Reveal κ κB) (RV : Reveal ν νB) (hKinj : Function.Injective RK.from_public)
    (m : BTreeMap κB νB) :
    List.Perm ((btreeMapReveal RK RV).from_public m).entries
      (m.entries.map (pairReveal RK RV).from_public) := by
  apply collectList_perm
  have h1 : (m.entries.map (pairReveal RK RV).from_public).map Prod.fst =
      (m.entries.map Prod.fst).map RK.from_public := by
    rw [List.map_map, List.map_map]
    exact List.map_congr_left (fun a _ => rfl)
  rw [h1]
  exact List.Nodup.map hKinj (btree_keys_nodup m)

theorem btree_unwrap_from_public {κ κB ν νB : Type} [LinearOrder κ] [LinearOrder κB]
    (RK : Reveal κ κB) (RV : Reveal ν νB)
    (hK : UnwrapFromPublicId RK) (hV : UnwrapFromPublicId RV) :
    UnwrapFromPublicId (btreeMapReveal RK RV) := by
  intro m
  have hret : ∀ q : κB × νB,
      (pairReveal RK RV).unwrap_as_public ((pairReveal RK RV).from_public q) =
        Except.ok q := pair_unwrap_from_public RK RV hK hV
  have hKinj : Function.Injective RK.from_public := by
    intro a b hab
    have h1 := hK a
    rw [hab, hK b] at h1
    exact (Except.ok.inj h1).symm
  have hperm := btree_from_public_entries_perm RK RV hKinj m
  have hmem : ∀ p ∈ ((btreeMapReveal RK RV).from_public m).entries,
      ∃ q, p = (pairReveal RK RV).from_public q := by
    intro p hp
    obtain ⟨q, _, hq⟩ := List.mem_map.mp ((List.Perm.mem_iff hperm).mp hp)
    exact ⟨q, hq.symm⟩
  obtain ⟨bs, hbs, hmap⟩ := exceptMapList_inv
    ((pairReveal RK RV).from_public) ((pairReveal RK RV).unwrap_as_public)
    hret ((btreeMapReveal RK RV).from_public m).entries hmem
  have hfpinj : Function.Injective ((pairReveal RK RV).from_public) := by
    intro a b hab
    have h1 := hret a
    rw [hab, hret b] at h1
    exact (Except.ok.inj h1).symm
  have hperm2 : List.Perm bs m.entries := by
    have hmperm : List.Perm (bs.map ((pairReveal RK RV).from_public))
        (m.entries.map ((pairReveal RK RV).from_public)) := by
      rw [hmap]
      exact hperm
    have hms := Multiset.coe_eq_coe.mpr hmperm
    rw [← Multiset.map_coe, ← Multiset.map_coe] at hms
    exact Multiset.coe_eq_coe.mp (Multiset.map_injective hfpinj hms)
  show Except.map mapCollect
      (exceptMapList ((pairReveal RK RV).unwrap_as_public)
        ((btreeMapReveal RK RV).from_public m).entries) = Except.ok m
  rw [hbs]
  show Except.ok (mapCollect bs) = Except.ok m
  have hentries : collectList bs = m.entries :=
    collectList_eq_of_perm_sorted bs m.entries hperm2 (btree_keys_nodup m) m.sorted
  exact congrArg Except.ok (BTreeMap.eq_of_entries_eq hentries)

theorem usize_reveal_from_public : RevealFromPublicId usizeReveal := fun _ => rfl

theorem phantom_reveal_from_public {α β : Type} (R : Reveal α β) :
    RevealFromPublicId (phantomReveal R) := by
  intro b
  cases b
  rfl

theorem vec_reveal_from_public {α β : Type} (R : Reveal α β)
    (h : RevealFromPublicId R) : RevealFromPublicId (vecReveal R) := by
  intro l
  show (l.map R.from_public).map R.reveal = l
  rw [List.map_map]
  have h2 : ∀ a ∈ l, (R.reveal ∘ R.from_public) a = id a := fun a _ => h a
  rw [List.map_congr_left h2, List.map_id]

theorem pair_reveal_from_public {α β γ δ : Type} (RA : Reveal α β) (RB : Reveal γ δ)
    (hA : RevealFromPublicId RA) (hB : RevealFromPublicId RB) :
    RevealFromPublicId (pairReveal RA RB) := by
  intro q
  show (RA.reveal (RA.from_public q.1), RB.reveal (RB.from_public q.2)) = q
  rw [hA q.1, hB q.2]

theorem option_reveal_from_public {α β : Type} (R : Reveal α β)
    (h : RevealFromPublicId R) : RevealFromPublicId (optionReveal R) := by
  intro b
  cases b with
  | none => rfl
  | some x =>
    show some (R.reveal (R.from_public x)) = some x
    rw [h x]

theorem rc_reveal_from_public {α β : Type} (R : Reveal α β)
    (h : RevealFromPublicId R) : RevealFromPublicId (rcReveal R) := by
  intro b
  show Rc.mk (R.reveal (R.from_public b.get)) = b
  rw [h b.get]

theorem btree_reveal_from_public {κ κB ν νB : Type} [LinearOrder κ] [LinearOrder κB]
    (RK : Reveal κ κB) (RV : Reveal ν νB)
    (hK : RevealFromPublicId RK) (hV : RevealFromPublicId RV) :
    RevealFromPublicId (btreeMapReveal RK RV) := by
  intro m
  have hrvfp : ∀ q : κB × νB,
      (pairReveal RK RV).reveal ((pairReveal RK RV).from_public q) = q :=
    pair_reveal_from_public RK RV hK hV
  have hKinj : Function.Injective RK.from_public := by
    intro a b hab
    rw [← hK a, ← hK b, hab]
  have hperm := btree_from_public_entries_perm RK RV hKinj m
  have h6 : List.Perm
      ((((btreeMapReveal RK RV).from_public m).entries).map (pairReveal RK RV).reveal)
      m.entries := by
    have h5 := List.Perm.map (pairReveal RK RV).reveal hperm
    rw [List.map_map] at h5
    have h7 : ∀ q ∈ m.entries,
        ((pairReveal RK RV).reveal ∘ (pairReveal RK RV).from_public) q = id q :=
      fun q _ => hrvfp q
    rw [List.map_congr_left h7, List.map_id] at h5
    exact h5
  apply BTreeMap.eq_of_entries_eq
  show collectList ((((btreeMapReveal RK RV).from_public m).entries).map
    (pairReveal RK RV).reveal) = m.entries
  exact collectList_eq_of_perm_sorted _ m.entries h6 (btree_keys_nodup m) m.sorted

/-- C1 (counterexample): with a contract key type whose reveal is
many-to-one, map reveal merges entries: revealing the two-entry map
`cexMap` under `constNatReveal` keys produces a one-entry map, so the
claim's entry-count preservation fails as stated. -/
theorem map_reveal_collision_counterexample :
    ((btreeMapReveal constNatReveal usizeReveal).reveal cexMap).entries.length ≠
      cexMap.entries.length := by decide

/-- C1 (amended): provided distinct keys of the map still have distinct
revealed keys, revealing an ordered map yields exactly the revealed
key-value pairs of the original entries (as a permutation, re-sorted by the
revealed keys) and preserves the entry count. -/
theorem map_reveal_pairs_preserved {κ κB ν νB : Type} [LinearOrder κ] [LinearOrder κB]
    (RK : Reveal κ κB) (RV : Reveal ν νB) (m : BTreeMap κ ν)
    (hinj : (m.entries.map (fun p => RK.reveal p.1)).Nodup) :
    List.Perm ((btreeMapReveal RK RV).reveal m).entries
      (m.entries.map (pairReveal RK RV).reveal) ∧
    ((btreeMapReveal RK RV).reveal m).entries.length = m.entries.length := by
  have hkeys : ((m.entries.map (pairReveal RK RV).reveal).map Prod.fst).Nodup := by
    rw [List.map_map]
    exact hinj
  have hperm : List.Perm ((btreeMapReveal RK RV).reveal m).entries
      (m.entries.map (pairReveal RK RV).reveal) :=
    collectList_perm (m.entries.map (pairReveal RK RV).reveal) hkeys
  refine ⟨hperm, ?_⟩
  rw [List.Perm.length_eq hperm, List.length_map]

theorem map_reveal_pairs_preserved_witness :
    List.Perm ((btreeMapReveal usizeReveal usizeReveal).reveal cexMap).entries
      (cexMap.entries.map (pairReveal usizeReveal usizeReveal).reveal) ∧
    ((btreeMapReveal usizeReveal usizeReveal).reveal cexMap).entries.length =
      cexMap.entries.length :=
  map_reveal_pairs_preserved usizeReveal usizeReveal cexMap (by decide)

/-- C2: for every base value of a type whose `unwrap_as_public` is
overridden to succeed, unwrapping the value tagged by `from_public` returns
the base value: it holds for `usize` and is preserved by every composite
constructor (`Vec`, `BTreeMap`, `Option`, `Rc`, pair), hence holds for all
composites built over such types. -/
theorem unwrap_from_public_roundtrip :
    UnwrapFromPublicId usizeReveal ∧
    (∀ (α β : Type) (R : Reveal α β),
      UnwrapFromPublicId R → UnwrapFromPublicId (vecReveal R)) ∧
    (∀ (κ κB ν νB : Type) [LinearOrder κ] [LinearOrder κB]
        (RK : Reveal κ κB) (RV : Reveal ν νB),
      UnwrapFromPublicId RK → UnwrapFromPublicId RV →
        UnwrapFromPublicId (btreeMapReveal RK RV)) ∧
    (∀ (α β : Type) (R : Reveal α β),
      UnwrapFromPublicId R → UnwrapFromPublicId (optionReveal R)) ∧
    (∀ (α β : Type) (R : Reveal α β),
      UnwrapFromPublicId R → UnwrapFromPublicId (rcReveal R)) ∧
    (∀ (α β γ δ : Type) (RA : Reveal α β) (RB : Reveal γ δ),
      UnwrapFromPublicId RA → UnwrapFromPublicId RB →
        UnwrapFromPublicId (pairReveal RA RB)) := by
  refine ⟨usize_unwrap_from_public, ?_, ?_, ?_, ?_, ?_⟩
  · intro α β R h
    exact vec_unwrap_from_public R h
  · intro κ κB ν νB instK instKB RK RV hK hV
    exact btree_unwrap_from_public RK RV hK hV
  · intro α β R h
    exact option_unwrap_from_public R h
  · intro α β R h
    exact rc_unwrap_from_public R h
  · intro α β γ δ RA RB hA hB
    exact pair_unwrap_from_public RA RB hA hB

theorem unwrap_from_public_roundtrip_witness :
    (vecReveal usizeReveal).unwrap_as_public
      ((vecReveal usizeReveal).from_public [1, 2, 3]) = Except.ok [1, 2, 3] :=
  unwrap_from_public_roundtrip.2.1 Nat Nat usizeReveal (fun _ => rfl) [1, 2, 3]

/-- C7: `from_public` is a right inverse of `reveal`: it holds for the
primitive types `usize` and `PhantomData`, and is preserved by every
composite constructor (`Vec`, `BTreeMap`, `Option`, `Rc`, pair), hence
holds for every composite built from them. -/
theorem reveal_from_public_roundtrip :
    RevealFromPublicId usizeReveal ∧
    (∀ (α β : Type) (R : Reveal α β), RevealFromPublicId (phantomReveal R)) ∧
    (∀ (α β : Type) (R : Reveal α β),
      RevealFromPublicId R → RevealFromPublicId (vecReveal R)) ∧
    (∀ (κ κB ν νB : Type) [LinearOrder κ] [LinearOrder κB]
        (RK : Reveal κ κB) (RV : Reveal ν νB),
      RevealFromPublicId RK → RevealFromPublicId RV →
        RevealFromPublicId (btreeMapReveal RK RV)) ∧
    (∀ (α β : Type) (R : Reveal α β),
      RevealFromPublicId R → RevealFromPublicId (optionReveal R)) ∧
    (∀ (α β : Type) (R : Reveal α β),
      RevealFromPublicId R → RevealFromPublicId (rcReveal R)) ∧
    (∀ (α β γ δ : Type) (RA : Reveal α β) (RB : Reveal γ δ),
      RevealFromPublicId RA → RevealFromPublicId RB →
        RevealFromPublicId (pairReveal RA RB)) := by
  refine ⟨usize_reveal_from_public, ?_, ?_, ?_, ?_, ?_, ?_⟩
  · intro α β R
    exact phantom_reveal_from_public R
  · intro α β R h
    exact vec_reveal_from_public R h
  · intro κ κB ν νB instK instKB RK RV hK hV
    exact btree_reveal_from_public RK RV hK hV
  · intro α β R h
    exact option_reveal_from_public R h
  · intro α β R h
    exact rc_reveal_from_public R h
  · intro α β γ δ RA RB hA hB
    exact pair_reveal_from_public RA RB hA hB

theorem reveal_from_public_roundtrip_witness :
    (vecReveal usizeReveal).reveal
      ((vecReveal usizeReveal).from_public [4, 5]) = [4, 5] :=
  reveal_from_public_roundtrip.2.2.1 Nat Nat usizeReveal (fun _ => rfl) [4, 5]

/-- C9: `unwrap_as_public` on a composite recurses the publicness assertion
into every contained element: it succeeds with the element-wise unwrapped
structure exactly when every element unwraps successfully, and it fails with
the offending element's own error otherwise. -/
theorem unwrap_recurses_into_composites :
    (∀ (α β : Type) (R : Reveal α β) (l : List α),
      ((∃ bs, (vecReveal R).unwrap_as_public l = Except.ok bs) ↔
        ∀ x ∈ l, ∃ b, R.unwrap_as_public x = Except.ok b) ∧
      (∀ g : α → β, (∀ x ∈ l, R.unwrap_as_public x = Except.ok (g x)) →
        (vecReveal R).unwrap_as_public l = Except.ok (l.map g))) ∧
    (∀ (κ κB ν νB : Type) [LinearOrder κ] [LinearOrder κB]
        (RK : Reveal κ κB) (RV : Reveal ν νB) (m : BTreeMap κ ν),
      ((∃ mb, (btreeMapReveal RK RV).unwrap_as_public m = Except.ok mb) ↔
        ∀ p ∈ m.entries, ∃ q, (pairReveal RK RV).unwrap_as_public p = Except.ok q) ∧
      (∀ g : κ × ν → κB × νB,
        (∀ p ∈ m.entries, (pairReveal RK RV).unwrap_as_public p = Except.ok (g p)) →
        (btreeMapReveal RK RV).unwrap_as_public m =
          Except.ok (mapCollect (m.entries.map g)))) ∧
    (∀ (α β : Type) (R : Reveal α β),
      (optionReveal R).unwrap_as_public none = Except.ok none ∧
      (∀ x b, R.unwrap_as_public x = Except.ok b →
        (optionReveal R).unwrap_as_public (some x) = Except.ok (some b)) ∧
      (∀ x e, R.unwrap_as_public x = Except.error e →
        (optionReveal R).unwrap_as_public (some x) = Except.error e)) ∧
    (∀ (α β γ δ : Type) (RA : Reveal α β) (RB : Reveal γ δ) (p : α × γ),
      ((∃ q, (pairReveal RA RB).unwrap_as_public p = Except.ok q) ↔
        ((∃ a, RA.unwrap_as_public p.1 = Except.ok a) ∧
         (∃ b, RB.unwrap_as_public p.2 = Except.ok b))) ∧
      (∀ a b, RA.unwrap_as_public p.1 = Except.ok a →
        RB.unwrap_as_public p.2 = Except.ok b →
        (pairReveal RA RB).unwrap_as_public p = Except.ok (a, b))) := by
  refine ⟨?_, ?_, ?_, ?_⟩
  · intro α β R l
    exact ⟨exceptMapList_ok_iff R.unwrap_as_public l,
      fun g hg => exceptMapList_ok_of_forall R.unwrap_as_public g l hg⟩
  · intro κ κB ν νB instK instKB RK RV m
    have hdef : (btreeMapReveal RK RV).unwrap_as_public m =
        Except.map mapCollect
          (exceptMapList ((pairReveal RK RV).unwrap_as_public) m.entries) := rfl
    constructor
    · constructor
      · rintro ⟨mb, hmb⟩
        rw [hdef] at hmb
        cases hrec : exceptMapList ((pairReveal RK RV).unwrap_as_public) m.entries with
        | error e =>
          rw [hrec] at hmb
          simp [Except.map] at hmb
        | ok bs =>
          exact (exceptMapList_ok_iff ((pairReveal RK RV).unwrap_as_public)
            m.entries).mp ⟨bs, hrec⟩
      · intro hall
        obtain ⟨bs, hbs⟩ := (exceptMapList_ok_iff ((pairReveal RK RV).unwrap_as_public)
          m.entries).mpr hall
        refine ⟨mapCollect bs, ?_⟩
        rw [hdef, hbs]
        rfl
    · intro g hg
      have h2 := exceptMapList_ok_of_forall ((pairReveal RK RV).unwrap_as_public)
        g m.entries hg
      rw [hdef, h2]
      rfl
  · intro α β R
    refine ⟨rfl, ?_, ?_⟩
    · intro x b h
      show Except.map some (R.unwrap_as_public x) = Except.ok (some b)
      rw [h]
      rfl
    · intro x e h
      show Except.map some (R.unwrap_as_public x) = Except.error e
      rw [h]
      rfl
  · intro α β γ δ RA RB p
    constructor
    · constructor
      · rintro ⟨q, hq⟩
        cases hA2 : RA.unwrap_as_public p.1 with
        | error e => simp [pairReveal, hA2] at hq
        | ok a =>
          cases hB2 : RB.unwrap_as_public p.2 with
          | error e => simp [pairReveal, hA2, hB2] at hq
          | ok b => exact ⟨⟨a, rfl⟩, ⟨b, rfl⟩⟩
      · rintro ⟨⟨a, ha⟩, ⟨b, hb⟩⟩
        exact ⟨(a, b), by simp [pairReveal, ha, hb]⟩
    · intro a b ha hb
      simp [pairReveal, ha, hb]

theorem unwrap_recurses_into_composites_witness :
    (vecReveal usizeReveal).unwrap_as_public [2, 3] = Except.ok ([2, 3].map id) :=
  (unwrap_recurses_into_composites.1 Nat Nat usizeReveal [2, 3]).2 id (fun _ _ => rfl)
